import Mathlib

/-!
Verification of the libforth virtual machine specification.

The repository ships only the public header `src/libforth.h`; the VM
implementation itself (core memory, dictionary, outer/inner interpreter,
number parser, fault controller) is declared there but its source is not
under src/.  Every definition below whose doc comment starts with
`Modelled from the spec:` therefore embeds the missing component from the
words of the specification (spec.md sections 3 to 7), using only the data
that is in the header: the machine word type `mw` is `uint16_t`
(src/libforth.h line 26), so machine words range over [0, 65536) and
arithmetic is taken modulo 2 to the 16.
-/

namespace LibForth

/-- The modulus of the machine word type: `typedef uint16_t mw` in
src/libforth.h line 26 makes every machine word a 16-bit unsigned
integer. -/
def mwModulus : Nat := 65536

/-- Modelled from the spec: the Core Memory capacity is fixed at
initialization (section 3); since every address is a machine word, the
capacity is at most the mw-addressable space, and the model fixes it to
that space. -/
def coreCapacity : Nat := mwModulus

/-- Modelled from the spec: the error taxonomy of section 7 for the
missing fault controller (Address-Fault, Stack-Overflow, Stack-Underflow,
Dictionary-Full, Undefined-Word, Compiler-State-Fault, Arithmetic-Fault,
Input-Read-Fault). -/
inductive Fault where
  | addressFault
  | stackOverflow
  | stackUnderflow
  | dictionaryFull
  | undefinedWord
  | compilerStateFault
  | arithmeticFault
  | inputReadFault
  deriving DecidableEq, Repr

/-- Modelled from the spec: the outer interpreter state flag of section
4.5, INTERPRET or COMPILE. -/
inductive Mode where
  | INTERPRET
  | COMPILE
  deriving DecidableEq, Repr

/-- Modelled from the spec: the primitive opcodes of the missing inner
interpreter (section 4.6 and the design note of section 9: a conventional
minimal primitive set).  `pEXIT` is the designated return opcode. -/
inductive Prim where
  | pDUP
  | pADD
  | pMUL
  | pDIV
  | pEXIT
  deriving DecidableEq, Repr

/-- Modelled from the spec: a cell of a word body (section 3, Word
Record): a primitive opcode, a literal value, or a call to another word
record identified by its body start offset (compile-time binding). -/
inductive Cell where
  | prim (p : Prim)
  | lit (v : Nat)
  | call (addr : Nat)
  deriving DecidableEq, Repr

/-- Modelled from the spec: the executable part of a dictionary word,
either a native primitive or the start offset of a compiled body. -/
inductive WordCode where
  | primitive (p : Prim)
  | compiled (addr : Nat)
  deriving DecidableEq, Repr

/-- Modelled from the spec: a dictionary word record (section 3) with its
name, executable code, and the IMMEDIATE and HIDDEN flags.  The link
field of the embedded list is modelled by the position in the Lean list
(newest first). -/
structure WordRec where
  name : String
  code : WordCode
  immediate : Bool
  hidden : Bool
  deriving DecidableEq, Repr

/-- Modelled from the spec: the missing forth environment (struct forth
in src/libforth.h is opaque): dictionary (newest first), code memory of
cells, the two stacks (top of stack is the list head), the register set
(mode, radix), the fault flag with the kind of the first fault, the
definition currently being built, and the bound input source as a token
list.  The fault flag is monotonic: no operation below ever resets it. -/
structure Env where
  dict : List WordRec
  mem : List Cell
  dstack : List Nat
  rstack : List Nat
  mode : Mode
  radix : Nat
  fault : Bool
  faultKind : Option Fault
  defining : Option (String × List Cell)
  awaitingName : Bool
  input : List String
  deriving DecidableEq, Repr

/-- Modelled from the spec: the fault controller (section 4.7) records
the first fault and poisons the environment; a later fault on an already
poisoned environment changes nothing. -/
def setFault (e : Env) (f : Fault) : Env :=
  if e.fault then e else { e with fault := true, faultKind := some f }

/-- Modelled from the spec: Dictionary.Lookup (section 4.2) scans newest
first, skipping HIDDEN records, so later definitions shadow earlier ones
of the same name. -/
def lookup : List WordRec → String → Option WordRec
  | [], _ => none
  | w :: d, n => if w.hidden = false ∧ w.name = n then some w else lookup d n

/-- Modelled from the spec: the value of one character as a digit, digits
0 to 9 then letters (both cases) for values 10 and up. -/
def digitVal (c : Char) : Option Nat :=
  if '0' ≤ c ∧ c ≤ '9' then some (c.toNat - '0'.toNat)
  else if 'a' ≤ c ∧ c ≤ 'z' then some (c.toNat - 'a'.toNat + 10)
  else if 'A' ≤ c ∧ c ≤ 'Z' then some (c.toNat - 'A'.toNat + 10)
  else none

/-- Whether a character is a valid digit in the given radix. -/
def isDigitIn (radix : Nat) (c : Char) : Bool :=
  match digitVal c with
  | some v => v < radix
  | none => false

/-- Modelled from the spec: the digit loop of the missing number parser,
accumulating the value of a machine word modulo 2 to the 16; it fails as
soon as one character is not a valid digit in the radix. -/
def parseDigits (radix : Nat) : List Char → Nat → Option Nat
  | [], acc => some acc
  | c :: cs, acc =>
    match digitVal c with
    | some v => if v < radix then parseDigits radix cs ((acc * radix + v) % mwModulus) else none
    | none => none

/-- Modelled from the spec: Parse(token, radix) of section 4.4: an
optional single leading sign character followed by at least one digit,
every character a valid digit in the radix; no partial-parse fallback.
A negative number wraps into the unsigned machine word range. -/
def parseNumber (radix : Nat) (tok : String) : Option Nat :=
  match tok.toList with
  | [] => none
  | c :: cs =>
    if c = '-' then
      match cs with
      | [] => none
      | _ :: _ => (parseDigits radix cs 0).map (fun v => (mwModulus - v % mwModulus) % mwModulus)
    else if c = '+' then
      match cs with
      | [] => none
      | _ :: _ => parseDigits radix cs 0
    else parseDigits radix (c :: cs) 0

/-- The predicate of the specification sentence for Parse (section 4.4),
written exactly after its words for the refinement claim: every character
of the token is a valid digit in the radix, optionally preceded by a
single sign character (and the token is not just a sign). -/
def validNumeric (radix : Nat) (tok : String) : Bool :=
  match tok.toList with
  | [] => false
  | c :: cs =>
    if c = '-' ∨ c = '+' then (decide (cs ≠ [])) && cs.all (isDigitIn radix)
    else (c :: cs).all (isDigitIn radix)

/-- Modelled from the spec: the effect of one primitive opcode (section
4.6): arithmetic operates on the top of the data stack modulo 2 to the
16; division by zero is an Arithmetic-Fault; too few operands is a
Stack-Underflow.  State at the moment of a fault is left exactly as it
was. -/
def execPrim (p : Prim) (e : Env) : Env :=
  match p with
  | .pDUP =>
    match e.dstack with
    | v :: rest => { e with dstack := v :: v :: rest }
    | [] => setFault e .stackUnderflow
  | .pADD =>
    match e.dstack with
    | b :: a :: rest => { e with dstack := ((a + b) % mwModulus) :: rest }
    | _ => setFault e .stackUnderflow
  | .pMUL =>
    match e.dstack with
    | b :: a :: rest => { e with dstack := ((a * b) % mwModulus) :: rest }
    | _ => setFault e .stackUnderflow
  | .pDIV =>
    match e.dstack with
    | b :: a :: rest =>
      if b = 0 then setFault e .arithmeticFault
      else { e with dstack := ((a / b) % mwModulus) :: rest }
    | _ => setFault e .stackUnderflow
  | .pEXIT => e

/-- The state of an inner interpreter run: still executing at an
instruction pointer, or finished with a resulting environment. -/
inductive InnerState where
  | running (e : Env) (ip : Nat)
  | finished (e : Env)
  deriving DecidableEq, Repr

/-- The environment carried by an inner interpreter state. -/
def stateEnv : InnerState → Env
  | .running e _ => e
  | .finished e => e

/-- Modelled from the spec: the dispatch of the inner interpreter
(section 4.6) on a fetched cell: a call cell pushes the return address
on the return stack; the return opcode pops it, finishing the whole call
when the return stack is exhausted; a fetch outside the code memory
(no cell) is an Address-Fault.  The instruction pointer is an mw
register (uint16_t in src/libforth.h line 26), so advancing it and
storing a return address reduce modulo 2 to the 16. -/
def innerDispatch (e : Env) (ip : Nat) : Option Cell → InnerState
  | none => .finished (setFault e .addressFault)
  | some (.prim .pEXIT) =>
    match e.rstack with
    | [] => .finished e
    | r :: rs => .running { e with rstack := rs } r
  | some (.prim p) => .running (execPrim p e) ((ip + 1) % mwModulus)
  | some (.lit v) =>
    .running { e with dstack := v :: e.dstack } ((ip + 1) % mwModulus)
  | some (.call a) =>
    .running { e with rstack := ((ip + 1) % mwModulus) :: e.rstack } a

/-- Modelled from the spec: one step of the inner interpreter: a
poisoned environment stops at once, otherwise the cell at the
instruction pointer is fetched and dispatched. -/
def innerStep : InnerState → InnerState
  | .finished e => .finished e
  | .running e ip =>
    if e.fault then .finished e else innerDispatch e ip (e.mem[ip]?)

/-- Iterating the inner interpreter step a bounded number of times. -/
def innerRun : Nat → InnerState → InnerState
  | 0, s => s
  | fuel + 1, s => innerRun fuel (innerStep s)

/-- Modelled from the spec: the inner interpreter executing a body from
a start offset.  The fuel argument is a model artifact bounding the
number of executed cells; running out of fuel is reported through the
fault flag, so a fault-free result always comes from a genuinely
finished execution. -/
def inner (fuel : Nat) (e : Env) (ip : Nat) : Env :=
  match innerRun fuel (.running e ip) with
  | .finished e2 => e2
  | .running e2 _ => { e2 with fault := true }

/-- Modelled from the spec: executing a found word in interpret mode (or
an immediate word): a primitive runs directly, a compiled word is handed
to the inner interpreter at its body start. -/
def execWord (fuel : Nat) (e : Env) (w : WordRec) : Env :=
  match w.code with
  | .primitive p => execPrim p e
  | .compiled a => inner fuel e a

/-- The compilation cell for a word: a primitive opcode cell for a
primitive, a call cell carrying the body start offset (bound at compile
time) for a compiled word. -/
def cellOfWord (w : WordRec) : Cell :=
  match w.code with
  | .primitive p => .prim p
  | .compiled a => .call a

/-- Modelled from the spec: appending one cell to the definition being
built; appending with no definition in progress is a
Compiler-State-Fault. -/
def appendToDef (e : Env) (c : Cell) : Env :=
  match e.defining with
  | some (n, body) => { e with defining := some (n, body ++ [c]) }
  | none => setFault e .compilerStateFault

/-- Modelled from the spec: the begin-definition primitive (colon) seen
in interpret mode: switch to COMPILE and wait for the next token, which
names the new definition. -/
def beginColon (e : Env) : Env :=
  { e with mode := .COMPILE, awaitingName := true }

/-- Modelled from the spec: the token following a colon names the new
definition and opens its record.  The new word is not yet visible to
lookup (the HIDDEN discipline of section 3). -/
def takeName (e : Env) (tok : String) : Env :=
  { e with awaitingName := false, defining := some (tok, []) }

/-- Modelled from the spec: the end-definition primitive (semicolon,
IMMEDIATE): in COMPILE mode it seals the current record, appending its
body (terminated by the return opcode) to code memory and making the
word visible to lookup, then returns to INTERPRET; in INTERPRET mode it
is a Compiler-State-Fault.  Sealing a definition that does not fit in
the remaining Core Memory is a Dictionary-Full fault (section 4.2), so
code memory never grows past the capacity. -/
def semicolonStep (e : Env) : Env :=
  match e.mode with
  | .INTERPRET => setFault e .compilerStateFault
  | .COMPILE =>
    match e.defining with
    | none => setFault e .compilerStateFault
    | some (n, body) =>
      if e.mem.length + body.length + 1 ≤ coreCapacity then
        { e with
          mem := e.mem ++ body ++ [.prim .pEXIT]
          dict := { name := n, code := .compiled e.mem.length, immediate := false, hidden := false } :: e.dict
          defining := none
          mode := .INTERPRET }
      else setFault e .dictionaryFull

/-- Modelled from the spec: one iteration of the outer interpreter loop
(section 4.5) on one token other than colon: dictionary lookup first
(execute when IMMEDIATE or interpreting, compile a call cell otherwise),
then the number parser (push when interpreting, compile a literal cell
otherwise), otherwise an Undefined-Word fault. -/
def stepToken (fuel : Nat) (e : Env) (tok : String) : Env :=
  if e.fault then e
  else if e.awaitingName then takeName e tok
  else if tok = ":" then
    match e.mode with
    | .COMPILE => setFault e .compilerStateFault
    | .INTERPRET => beginColon e
  else if tok = ";" then semicolonStep e
  else
    match lookup e.dict tok with
    | some w =>
      if w.immediate || e.mode = .INTERPRET then execWord fuel e w
      else appendToDef e (cellOfWord w)
    | none =>
      match parseNumber e.radix tok with
      | some v =>
        match e.mode with
        | .INTERPRET => { e with dstack := v :: e.dstack }
        | .COMPILE => appendToDef e (.lit v)
      | none => setFault e .undefinedWord

/-- Modelled from the spec: the outer interpreter loop over a token
sequence, one token at a time.  A poisoned environment executes no token
at all. -/
def runTokens (fuel : Nat) (e : Env) (ts : List String) : Env :=
  ts.foldl (stepToken fuel) e

/-- Splitting a character list into maximal runs of non-whitespace
characters; the second argument accumulates the current token in
reverse. -/
def splitTokens : List Char → List Char → List String
  | [], acc => if acc = [] then [] else [String.mk acc.reverse]
  | c :: cs, acc =>
    if c.isWhitespace then
      (if acc = [] then [] else [String.mk acc.reverse]) ++ splitTokens cs []
    else splitTokens cs (c :: acc)

/-- Modelled from the spec: the tokenizer of the outer interpreter,
whitespace-delimited tokens. -/
def tokenize (s : String) : List String :=
  splitTokens s.toList []

/-- Modelled from the spec: forth_eval (src/libforth.h lines 51 to 61 and
section 6): same contract as Run against an in-memory string source; a
poisoned environment is rejected with a negative status before any token
is read; otherwise the outer interpreter runs the string to exhaustion
and the status is negative exactly when a fault occurred. -/
def forth_eval (fuel : Nat) (e : Env) (s : String) : Int × Env :=
  if e.fault then (-1, e)
  else
    let e2 := runTokens fuel e (tokenize s)
    (if e2.fault then -1 else 0, e2)

/-- Modelled from the spec: forth_run (src/libforth.h lines 42 to 50 and
section 6): drives the outer interpreter against the currently bound
input until exhaustion or fault; a poisoned environment is rejected with
a negative status before any token is read. -/
def forth_run (fuel : Nat) (e : Env) : Int × Env :=
  if e.fault then (-1, e)
  else
    let e2 := runTokens fuel e e.input
    (if e2.fault then -1 else 0, e2)

/-- Modelled from the spec: forth_set_string_input binds an in-memory
string as the active input source, leaving registers, dictionary and
stacks untouched. -/
def forth_set_string_input (e : Env) (s : String) : Env :=
  { e with input := tokenize s }

/-- Modelled from the spec: the environment produced by forth_init with a
few predefined words (src/libforth.h lines 27 to 34): the conventional
minimal primitives, an empty code memory, empty stacks, radix 10,
interpret mode, no fault. -/
def initEnv : Env :=
  { dict :=
      [ { name := "DUP", code := .primitive .pDUP, immediate := false, hidden := false }
      , { name := "+", code := .primitive .pADD, immediate := false, hidden := false }
      , { name := "*", code := .primitive .pMUL, immediate := false, hidden := false }
      , { name := "/", code := .primitive .pDIV, immediate := false, hidden := false } ]
    mem := []
    dstack := []
    rstack := []
    mode := .INTERPRET
    radix := 10
    fault := false
    faultKind := none
    defining := none
    awaitingName := false
    input := [] }

/-- Modelled from the spec: the register view of one bounded stack
embedded in core memory (section 3 and 4.3): the offset of the first
reserved cell, the number of reserved cells, and the stack pointer as
the number of values currently held. -/
structure CoreStack where
  base : Nat
  cap : Nat
  sp : Nat
  deriving DecidableEq, Repr

/-- Modelled from the spec: Push (section 4.3) on a stack embedded in
core memory: the bound is checked before any write, so a push beyond the
reserved capacity is a Stack-Overflow that touches neither the core nor
the stack pointer. -/
def stackPush (core : List Nat) (s : CoreStack) (v : Nat) :
    List Nat × CoreStack × Option Fault :=
  if s.sp < s.cap then
    (core.set (s.base + s.sp) v, { s with sp := s.sp + 1 }, none)
  else (core, s, some .stackOverflow)

/-- Modelled from the spec: Pop (section 4.3): popping below the base of
the stack is a Stack-Underflow that leaves the stack pointer and the
core unchanged. -/
def stackPop (core : List Nat) (s : CoreStack) :
    Option Nat × List Nat × CoreStack × Option Fault :=
  if s.sp = 0 then (none, core, s, some .stackUnderflow)
  else (some (core.getD (s.base + s.sp - 1) 0), core, { s with sp := s.sp - 1 }, none)

/-- Pushing a whole list of values in order, stopping at the first
fault. -/
def pushMany (core : List Nat) (s : CoreStack) :
    List Nat → List Nat × CoreStack × Option Fault
  | [] => (core, s, none)
  | v :: vs =>
    match stackPush core s v with
    | (c2, s2, none) => pushMany c2 s2 vs
    | (c2, s2, some f) => (c2, s2, some f)

/-- The environment obtained by evaluating 1 0 / in a fresh environment:
the division by zero poisons it. -/
def poisonedEnv : Env := (forth_eval 100 initEnv "1 0 /").2

/-- The environment obtained by defining ONE (pushing 1), then CALLER
(calling ONE), then redefining ONE (pushing 2). -/
def shadowEnv : Env :=
  runTokens 100 initEnv
    [":", "ONE", "1", ";", ":", "CALLER", "ONE", ";", ":", "ONE", "2", ";"]

/-- The colon/semicolon nesting discipline of the outer interpreter as a
pure state machine over the token list: a colon in INTERPRET consumes
the following name token and enters COMPILE, a semicolon in COMPILE
returns to INTERPRET, every other token leaves the mode unchanged;
malformed nesting has no resulting mode. -/
def nest : Mode → List String → Option Mode
  | m, [] => some m
  | .COMPILE, t :: ts =>
    if t = ":" then none
    else if t = ";" then nest .INTERPRET ts
    else nest .COMPILE ts
  | .INTERPRET, [t] =>
    if t = ":" then some .COMPILE
    else if t = ";" then none
    else some .INTERPRET
  | .INTERPRET, t :: t2 :: ts =>
    if t = ":" then nest .COMPILE ts
    else if t = ";" then none
    else nest .INTERPRET (t2 :: ts)

/-- The machine words held in a cell are 16-bit values: the value of a
literal cell and the body offset of a call cell. -/
def cellWF : Cell → Bool
  | .lit v => decide (v < mwModulus)
  | .prim _ => true
  | .call addr => decide (addr < mwModulus)

/-- Every literal cell of the definition under construction (when one is
open) is a 16-bit value. -/
def defWF : Option (String × List Cell) → Bool
  | some (_, body) => body.all cellWF
  | none => true

/-- The body offset stored in a dictionary record is a 16-bit value. -/
def wordWF (w : WordRec) : Bool :=
  match w.code with
  | .primitive _ => true
  | .compiled a => decide (a < mwModulus)

/-- The machine word discipline of the environment: every value of every
Core Memory cell (literal values and call offsets), every data stack and
return stack value, every dictionary body offset, the radix register,
and every literal or call cell of the definition being built lies in
[0, 65536), the range of the `mw` type of src/libforth.h, and code
memory never exceeds the mw-addressable capacity. -/
def wf (e : Env) : Bool :=
  e.dstack.all (fun v => decide (v < mwModulus)) &&
    e.rstack.all (fun v => decide (v < mwModulus)) &&
    e.mem.all cellWF &&
    e.dict.all wordWF &&
    defWF e.defining &&
    decide (e.radix < mwModulus) &&
    decide (e.mem.length ≤ coreCapacity)

/-- The machine word discipline of an inner interpreter state: the
environment discipline, and the instruction pointer register is itself a
machine word while running. -/
def stateWF : InnerState → Bool
  | .running e ip => wf e && decide (ip < mwModulus)
  | .finished e => wf e

end LibForth

namespace LibForth

/-- C7: starting from a fresh environment with an empty data stack,
evaluating the definition of SQUARE followed by 3 SQUARE completes
without fault and leaves exactly one value, 9, on the data stack. -/
theorem square_roundtrip :
    (forth_eval 100 initEnv ": SQUARE DUP * ;").1 = 0 ∧
    (forth_eval 100 (forth_eval 100 initEnv ": SQUARE DUP * ;").2 "3 SQUARE").1 = 0 ∧
    (forth_eval 100 (forth_eval 100 initEnv ": SQUARE DUP * ;").2 "3 SQUARE").2.fault = false ∧
    (forth_eval 100 (forth_eval 100 initEnv ": SQUARE DUP * ;").2 "3 SQUARE").2.dstack = [9] := by
  decide

/-- C8: evaluating 1 0 / raises an Arithmetic-Fault and poisons the
environment; a following evaluation of 2 2 + on the same environment
returns a negative status and leaves the whole environment, in
particular the data stack, unchanged. -/
theorem div_zero_poisons :
    (forth_eval 100 initEnv "1 0 /").1 = -1 ∧
    (forth_eval 100 initEnv "1 0 /").2.fault = true ∧
    (forth_eval 100 initEnv "1 0 /").2.faultKind = some .arithmeticFault ∧
    forth_eval 100 (forth_eval 100 initEnv "1 0 /").2 "2 2 +"
      = (-1, (forth_eval 100 initEnv "1 0 /").2) := by
  decide

/-- A poisoned environment executes no token: the token loop returns it
unchanged. -/
theorem stepToken_of_fault (fuel : Nat) (e : Env) (t : String)
    (h : e.fault = true) : stepToken fuel e t = e := by
  simp [stepToken, h]

/-- A poisoned environment executes no token of a whole token
sequence. -/
theorem runTokens_of_fault (fuel : Nat) (e : Env) (ts : List String)
    (h : e.fault = true) : runTokens fuel e ts = e := by
  induction ts with
  | nil => rfl
  | cons t ts ih =>
    show List.foldl (stepToken fuel) (stepToken fuel e t) ts = e
    rw [stepToken_of_fault fuel e t h]
    exact ih

/-- C1: once any fault has occurred, every subsequent Run/Evaluate call
on that environment returns a negative status with the environment
unchanged (so no token of the input is executed, however valid), and the
fault flag is never cleared. -/
theorem fault_poisons_permanently (fuel : Nat) (e : Env) (s : String)
    (ts : List String) (h : e.fault = true) :
    forth_eval fuel e s = (-1, e) ∧ forth_run fuel e = (-1, e) ∧
    runTokens fuel e ts = e := by
  exact ⟨by simp [forth_eval, h], by simp [forth_run, h],
    runTokens_of_fault fuel e ts h⟩

/-- Witness for C1: the environment poisoned by a division by zero
rejects a perfectly valid addition, unchanged. -/
theorem fault_poisons_permanently_witness :
    poisonedEnv.fault = true ∧
    forth_eval 100 poisonedEnv "2 2 +" = (-1, poisonedEnv) ∧
    forth_run 100 poisonedEnv = (-1, poisonedEnv) ∧
    runTokens 100 poisonedEnv ["2"] = poisonedEnv := by
  have h := fault_poisons_permanently 100 poisonedEnv "2 2 +" ["2"] (by decide)
  exact ⟨by decide, h.1, h.2.1, h.2.2⟩

/-- C3: on a healthy environment, Run and Evaluate return a negative
status exactly when a fault occurred during the call, and a call that
runs its input to exhaustion without fault returns the non-negative
status 0. -/
theorem status_negative_iff_fault (fuel : Nat) (e : Env) (s : String)
    (h : e.fault = false) :
    ((forth_eval fuel e s).1 < 0 ↔ (forth_eval fuel e s).2.fault = true) ∧
    ((forth_eval fuel e s).2.fault = false → (forth_eval fuel e s).1 = 0) ∧
    ((forth_run fuel e).1 < 0 ↔ (forth_run fuel e).2.fault = true) ∧
    ((forth_run fuel e).2.fault = false → (forth_run fuel e).1 = 0) := by
  have he : forth_eval fuel e s
      = (if (runTokens fuel e (tokenize s)).fault then -1 else 0,
         runTokens fuel e (tokenize s)) := by
    simp [forth_eval, h]
  have hr : forth_run fuel e
      = (if (runTokens fuel e e.input).fault then -1 else 0,
         runTokens fuel e e.input) := by
    simp [forth_run, h]
  refine ⟨?_, ?_, ?_, ?_⟩
  · rw [he]; cases hf : (runTokens fuel e (tokenize s)).fault <;> simp [hf]
  · rw [he]; cases hf : (runTokens fuel e (tokenize s)).fault <;> simp [hf]
  · rw [hr]; cases hf : (runTokens fuel e e.input).fault <;> simp [hf]
  · rw [hr]; cases hf : (runTokens fuel e e.input).fault <;> simp [hf]

/-- Witness for C3: a fault-free evaluation of 2 2 + returns 0, and the
faulting evaluation of 1 0 / returns a negative status. -/
theorem status_negative_iff_fault_witness :
    ((forth_eval 100 initEnv "2 2 +").2.fault = false →
      (forth_eval 100 initEnv "2 2 +").1 = 0) ∧
    ((forth_eval 100 initEnv "1 0 /").1 < 0 ↔
      (forth_eval 100 initEnv "1 0 /").2.fault = true) := by
  have h1 := status_negative_iff_fault 100 initEnv "2 2 +" (by decide)
  have h2 := status_negative_iff_fault 100 initEnv "1 0 /" (by decide)
  exact ⟨h1.2.1, h2.1⟩

/-- C9: a Pop on an empty stack (the model is used for the data stack
and the return stack alike) is a Stack-Underflow that leaves the stack
pointer and every core memory cell unchanged. -/
theorem pop_empty_underflow (core : List Nat) (s : CoreStack)
    (h : s.sp = 0) :
    stackPop core s = (none, core, s, some .stackUnderflow) := by
  simp [stackPop, h]

/-- Witness for C9: popping a concrete empty stack underflows and
changes nothing. -/
theorem pop_empty_underflow_witness :
    stackPop [5, 7] { base := 0, cap := 2, sp := 0 } =
      (none, [5, 7], { base := 0, cap := 2, sp := 0 },
        some Fault.stackUnderflow) :=
  pop_empty_underflow [5, 7] { base := 0, cap := 2, sp := 0 } rfl

/-- Setting one cell leaves every other cell unchanged. -/
theorem getD_set_ne (l : List Nat) (i j v : Nat) (h : i ≠ j) :
    (l.set i v).getD j 0 = l.getD j 0 := by
  induction l generalizing i j with
  | nil => simp
  | cons a l ih =>
    cases i with
    | zero =>
      cases j with
      | zero => exact absurd rfl h
      | succ j => simp
    | succ i =>
      cases j with
      | zero => simp
      | succ j => simpa using ih i j (by omega)

/-- Pushing no more values than the remaining reserved capacity never
faults. -/
theorem pushMany_no_fault (vs : List Nat) : ∀ (core : List Nat) (s : CoreStack),
    vs.length ≤ s.cap - s.sp → (pushMany core s vs).2.2 = none := by
  induction vs with
  | nil => intro core s _; rfl
  | cons v vs ih =>
    intro core s h
    have hlt : s.sp < s.cap := by simp at h; omega
    simp only [pushMany, stackPush, if_pos hlt]
    exact ih _ _ (by simp at h ⊢; omega)

/-- Pushing more values than the remaining reserved capacity is a
Stack-Overflow. -/
theorem pushMany_overflow (vs : List Nat) : ∀ (core : List Nat) (s : CoreStack),
    s.cap - s.sp < vs.length →
    (pushMany core s vs).2.2 = some .stackOverflow := by
  induction vs with
  | nil => intro core s h; simp at h
  | cons v vs ih =>
    intro core s h
    by_cases hlt : s.sp < s.cap
    · simp only [pushMany, stackPush, if_pos hlt]
      exact ih _ _ (by simp at h ⊢; omega)
    · simp [pushMany, stackPush, hlt]

/-- No push sequence ever writes outside the reserved range of the
stack. -/
theorem pushMany_frame (vs : List Nat) : ∀ (core : List Nat) (s : CoreStack) (j : Nat),
    (j < s.base ∨ s.base + s.cap ≤ j) →
    (pushMany core s vs).1.getD j 0 = core.getD j 0 := by
  induction vs with
  | nil => intro core s j _; rfl
  | cons v vs ih =>
    intro core s j hj
    by_cases hlt : s.sp < s.cap
    · simp only [pushMany, stackPush, if_pos hlt]
      rw [ih _ _ j (by simpa using hj)]
      exact getD_set_ne core (s.base + s.sp) j v (by omega)
    · simp [pushMany, stackPush, hlt]

/-- C2: pushing values one past the reserved capacity yields a
Stack-Overflow exactly on the first push past capacity (pushing up to
capacity is fault-free), and no push sequence ever writes a core memory
cell outside the reserved range of the stack, whatever happens. -/
theorem stack_overflow_bounds :
    (∀ (core : List Nat) (s : CoreStack) (vs : List Nat),
        vs.length ≤ s.cap - s.sp → (pushMany core s vs).2.2 = none) ∧
    (∀ (core : List Nat) (s : CoreStack) (vs : List Nat),
        s.cap - s.sp < vs.length →
        (pushMany core s vs).2.2 = some .stackOverflow) ∧
    (∀ (core : List Nat) (s : CoreStack) (vs : List Nat) (j : Nat),
        (j < s.base ∨ s.base + s.cap ≤ j) →
        (pushMany core s vs).1.getD j 0 = core.getD j 0) :=
  ⟨fun core s vs => pushMany_no_fault vs core s,
   fun core s vs => pushMany_overflow vs core s,
   fun core s vs => pushMany_frame vs core s⟩

/-- The digit loop succeeds exactly when every character is a valid
digit in the radix. -/
theorem parseDigits_isSome (radix : Nat) (cs : List Char) :
    ∀ acc : Nat, (parseDigits radix cs acc).isSome = cs.all (isDigitIn radix) := by
  induction cs with
  | nil => intro acc; simp [parseDigits]
  | cons c cs ih =>
    intro acc
    cases hd : digitVal c with
    | none => simp [parseDigits, hd, isDigitIn]
    | some v =>
      by_cases hv : v < radix
      · simp [parseDigits, hd, hv, isDigitIn, ih]
      · simp [parseDigits, hd, hv, isDigitIn]

/-- C4: Parse succeeds exactly when every character of the token is a
valid digit in the radix, optionally preceded by a single sign character
(no partial-parse fallback); and, universally, whenever a token fails
both dictionary lookup and number parsing, the outer interpreter step
raises Undefined-Word (the token must differ from colon and semicolon —
the begin/end-definition primitives the loop handles before lookup — and
must not be consumed as a definition name).  In particular FOO fails
number parsing with radix 10, so evaluating the unknown token FOO
raises Undefined-Word. -/
theorem parse_success_iff_valid :
    (∀ (radix : Nat) (tok : String),
        (parseNumber radix tok).isSome = validNumeric radix tok) ∧
    (∀ (fuel : Nat) (e : Env) (tok : String),
        e.fault = false → e.awaitingName = false →
        tok ≠ ":" → tok ≠ ";" →
        lookup e.dict tok = none →
        parseNumber e.radix tok = none →
        stepToken fuel e tok = setFault e .undefinedWord) ∧
    parseNumber 10 "FOO" = none ∧
    (forth_eval 100 initEnv "FOO").2.fault = true ∧
    (forth_eval 100 initEnv "FOO").2.faultKind = some .undefinedWord := by
  refine ⟨?_, ?_, by decide, by decide, by decide⟩
  case refine_2 =>
    intro fuel e tok hf ha h1 h2 hw hn
    simp [stepToken, hf, ha, h1, h2, hw, hn]
  intro radix tok
  rcases hl : tok.data with _ | ⟨c, cs⟩
  · simp [parseNumber, validNumeric, String.toList, hl]
  · by_cases hm : c = '-'
    · cases cs with
      | nil => simp [parseNumber, validNumeric, String.toList, hl, hm]
      | cons c2 cs2 =>
        simp [parseNumber, validNumeric, String.toList, hl, hm, parseDigits_isSome]
    · by_cases hp : c = '+'
      · cases cs with
        | nil => simp [parseNumber, validNumeric, String.toList, hl, hm, hp]
        | cons c2 cs2 =>
          simp [parseNumber, validNumeric, String.toList, hl, hm, hp, parseDigits_isSome]
      · simp [parseNumber, validNumeric, String.toList, hl, hm, hp, parseDigits_isSome]

/-- Witness for C4: the unknown token FOO, which fails lookup and number
parsing in the fresh environment, makes the outer interpreter step raise
Undefined-Word. -/
theorem parse_success_iff_valid_witness :
    stepToken 100 initEnv "FOO" = setFault initEnv .undefinedWord :=
  parse_success_iff_valid.2.1 100 initEnv "FOO" (by decide) (by decide)
    (by decide) (by decide) (by decide) (by decide)

/-- Witness for C2: a stack of capacity 2 inside a 4-cell core takes two
pushes without fault, overflows on the third, and the cells on either
side of the reserved range keep their values. -/
theorem stack_overflow_bounds_witness :
    (pushMany [0, 0, 0, 9] { base := 1, cap := 2, sp := 0 } [11, 22]).2.2 = none ∧
    (pushMany [0, 0, 0, 9] { base := 1, cap := 2, sp := 0 }
        [11, 22, 33]).2.2 = some Fault.stackOverflow ∧
    (pushMany [0, 0, 0, 9] { base := 1, cap := 2, sp := 0 }
        [11, 22, 33]).1.getD 3 0 = ([0, 0, 0, 9] : List Nat).getD 3 0 :=
  ⟨stack_overflow_bounds.1 _ _ _ (by decide),
   stack_overflow_bounds.2.1 _ _ _ (by decide),
   stack_overflow_bounds.2.2 _ _ _ 3 (by decide)⟩

/-- Raising a fault always leaves the fault flag set. -/
theorem setFault_fault (e : Env) (f : Fault) : (setFault e f).fault = true := by
  unfold setFault; split <;> simp_all

/-- Raising a fault touches no register besides the fault flag and its
kind. -/
theorem setFault_preserves (e : Env) (f : Fault) :
    (setFault e f).mode = e.mode ∧ (setFault e f).defining = e.defining ∧
    (setFault e f).awaitingName = e.awaitingName := by
  unfold setFault; split <;> simp

/-- The first fault on a healthy environment records its kind. -/
theorem setFault_kind (e : Env) (f : Fault) (h : e.fault = false) :
    (setFault e f).faultKind = some f := by
  simp [setFault, h]

/-- No primitive opcode touches the compile-state registers. -/
theorem execPrim_preserves (p : Prim) (e : Env) :
    (execPrim p e).mode = e.mode ∧ (execPrim p e).defining = e.defining ∧
    (execPrim p e).awaitingName = e.awaitingName := by
  cases p with
  | pDUP => cases hd : e.dstack <;> simp [execPrim, hd, setFault_preserves]
  | pADD =>
    rcases hd : e.dstack with _ | ⟨b, _ | ⟨a, rest⟩⟩ <;>
      simp [execPrim, hd, setFault_preserves]
  | pMUL =>
    rcases hd : e.dstack with _ | ⟨b, _ | ⟨a, rest⟩⟩ <;>
      simp [execPrim, hd, setFault_preserves]
  | pDIV =>
    rcases hd : e.dstack with _ | ⟨b, _ | ⟨a, rest⟩⟩
    · simp [execPrim, hd, setFault_preserves]
    · simp [execPrim, hd, setFault_preserves]
    · by_cases hb : b = 0 <;> simp [execPrim, hd, hb, setFault_preserves]
  | pEXIT => simp [execPrim]

/-- One inner interpreter step touches no compile-state register. -/
theorem innerStep_preserves (s : InnerState) :
    (stateEnv (innerStep s)).mode = (stateEnv s).mode ∧
    (stateEnv (innerStep s)).defining = (stateEnv s).defining ∧
    (stateEnv (innerStep s)).awaitingName = (stateEnv s).awaitingName := by
  have hd : ∀ (e : Env) (ip : Nat) (mc : Option Cell),
      (stateEnv (innerDispatch e ip mc)).mode = e.mode ∧
      (stateEnv (innerDispatch e ip mc)).defining = e.defining ∧
      (stateEnv (innerDispatch e ip mc)).awaitingName = e.awaitingName := by
    intro e ip mc
    rcases mc with _ | c
    · simp [innerDispatch, stateEnv, setFault_preserves]
    · cases c with
      | prim p =>
        cases p with
        | pEXIT => cases hr : e.rstack <;> simp [innerDispatch, stateEnv, hr]
        | pDUP => simp [innerDispatch, stateEnv, execPrim_preserves]
        | pADD => simp [innerDispatch, stateEnv, execPrim_preserves]
        | pMUL => simp [innerDispatch, stateEnv, execPrim_preserves]
        | pDIV => simp [innerDispatch, stateEnv, execPrim_preserves]
      | lit v => simp [innerDispatch, stateEnv]
      | call a => simp [innerDispatch, stateEnv]
  cases s with
  | finished e => simp [innerStep, stateEnv]
  | running e ip =>
    by_cases hf : e.fault
    · simp [innerStep, stateEnv, hf]
    · simpa [innerStep, stateEnv, hf] using hd e ip (e.mem[ip]?)

/-- A bounded inner interpreter run touches no compile-state
register. -/
theorem innerRun_preserves (fuel : Nat) : ∀ s : InnerState,
    (stateEnv (innerRun fuel s)).mode = (stateEnv s).mode ∧
    (stateEnv (innerRun fuel s)).defining = (stateEnv s).defining ∧
    (stateEnv (innerRun fuel s)).awaitingName = (stateEnv s).awaitingName := by
  induction fuel with
  | zero => intro s; simp [innerRun]
  | succ fuel ih =>
    intro s
    have h1 := innerStep_preserves s
    have h2 := ih (innerStep s)
    exact ⟨by rw [innerRun, h2.1, h1.1], by rw [innerRun, h2.2.1, h1.2.1],
      by rw [innerRun, h2.2.2, h1.2.2]⟩

/-- The inner interpreter touches no compile-state register. -/
theorem inner_preserves (fuel : Nat) (e : Env) (ip : Nat) :
    (inner fuel e ip).mode = e.mode ∧ (inner fuel e ip).defining = e.defining ∧
    (inner fuel e ip).awaitingName = e.awaitingName := by
  have h := innerRun_preserves fuel (.running e ip)
  rcases hs : innerRun fuel (.running e ip) with ⟨e2, ip2⟩ | e2 <;>
    rw [hs] at h <;> simp [stateEnv] at h <;>
    simp [inner, hs, h.1, h.2.1, h.2.2]

/-- Executing a word touches no compile-state register. -/
theorem execWord_preserves (fuel : Nat) (e : Env) (w : WordRec) :
    (execWord fuel e w).mode = e.mode ∧
    (execWord fuel e w).defining = e.defining ∧
    (execWord fuel e w).awaitingName = e.awaitingName := by
  cases hw : w.code with
  | primitive p => simp [execWord, hw, execPrim_preserves]
  | compiled a => simp [execWord, hw, inner_preserves]

/-- Appending a cell to the open definition keeps a definition open and
touches neither the mode nor the name register. -/
theorem appendToDef_preserves (e : Env) (c : Cell) :
    (appendToDef e c).mode = e.mode ∧
    (appendToDef e c).defining.isSome = e.defining.isSome ∧
    (appendToDef e c).awaitingName = e.awaitingName := by
  rcases hd : e.defining with _ | ⟨n, body⟩
  · simp [appendToDef, hd, setFault_preserves]
  · simp [appendToDef, hd]

/-- While a name is awaited, any token is consumed as the name of the new
definition. -/
theorem stepToken_awaiting (fuel : Nat) (e : Env) (t : String)
    (hf : e.fault = false) (ha : e.awaitingName = true) :
    stepToken fuel e t = takeName e t := by
  simp [stepToken, hf, ha]

/-- A colon in interpret mode begins a definition. -/
theorem stepToken_colon_interpret (fuel : Nat) (e : Env)
    (hf : e.fault = false) (ha : e.awaitingName = false)
    (hm : e.mode = .INTERPRET) :
    stepToken fuel e ":" = beginColon e := by
  simp [stepToken, hf, ha, hm]

/-- A colon while already compiling is a Compiler-State-Fault. -/
theorem stepToken_colon_compile (fuel : Nat) (e : Env)
    (hf : e.fault = false) (ha : e.awaitingName = false)
    (hm : e.mode = .COMPILE) :
    stepToken fuel e ":" = setFault e .compilerStateFault := by
  simp [stepToken, hf, ha, hm]

/-- A semicolon executes the end-definition primitive. -/
theorem stepToken_semi (fuel : Nat) (e : Env)
    (hf : e.fault = false) (ha : e.awaitingName = false) :
    stepToken fuel e ";" = semicolonStep e := by
  simp [stepToken, hf, ha]

/-- Sealing a definition that fits in the remaining core memory returns
to interpret mode, closes the open definition and preserves the fault
flag. -/
theorem semicolonStep_compile (e : Env) (n : String) (body : List Cell)
    (hm : e.mode = .COMPILE) (hd : e.defining = some (n, body))
    (hcap : e.mem.length + body.length + 1 ≤ coreCapacity) :
    (semicolonStep e).mode = .INTERPRET ∧
    (semicolonStep e).defining = none ∧
    (semicolonStep e).fault = e.fault ∧
    (semicolonStep e).awaitingName = e.awaitingName := by
  simp [semicolonStep, hm, hd, hcap]

/-- Sealing a definition that does not fit in the remaining core memory
is a Dictionary-Full fault. -/
theorem semicolonStep_full (e : Env) (n : String) (body : List Cell)
    (hm : e.mode = .COMPILE) (hd : e.defining = some (n, body))
    (hcap : ¬e.mem.length + body.length + 1 ≤ coreCapacity) :
    semicolonStep e = setFault e .dictionaryFull := by
  simp [semicolonStep, hm, hd, hcap]

/-- A semicolon in interpret mode is a Compiler-State-Fault. -/
theorem semicolonStep_interpret (e : Env) (hm : e.mode = .INTERPRET) :
    semicolonStep e = setFault e .compilerStateFault := by
  simp [semicolonStep, hm]

/-- Any token other than colon and semicolon, consumed while no name is
awaited, preserves the mode, whether a definition is open, and the name
register. -/
theorem stepToken_other_preserves (fuel : Nat) (e : Env) (t : String)
    (h1 : t ≠ ":") (h2 : t ≠ ";") (ha : e.awaitingName = false) :
    (stepToken fuel e t).mode = e.mode ∧
    (stepToken fuel e t).defining.isSome = e.defining.isSome ∧
    (stepToken fuel e t).awaitingName = e.awaitingName := by
  by_cases hf : e.fault
  · simp [stepToken, hf]
  · rcases hw : lookup e.dict t with _ | w
    · rcases hn : parseNumber e.radix t with _ | v
      · simp [stepToken, hf, ha, h1, h2, hw, hn, setFault_preserves]
      · cases hm : e.mode
        · simp [stepToken, hf, ha, h1, h2, hw, hn, hm]
        · simp [stepToken, hf, ha, h1, h2, hw, hn, hm, appendToDef_preserves]
    · by_cases himm : w.immediate = true
      · have hx : stepToken fuel e t = execWord fuel e w := by
          simp [stepToken, hf, ha, h1, h2, hw, himm]
        have h3 := execWord_preserves fuel e w
        exact ⟨by rw [hx, h3.1], by rw [hx, h3.2.1], by rw [hx, h3.2.2]⟩
      · cases hm : e.mode with
        | INTERPRET =>
          have hx : stepToken fuel e t = execWord fuel e w := by
            simp [stepToken, hf, ha, h1, h2, hw, himm, hm]
          have h3 := execWord_preserves fuel e w
          exact ⟨by rw [hx, h3.1]; exact hm, by rw [hx, h3.2.1],
            by rw [hx, h3.2.2]⟩
        | COMPILE =>
          have hx : stepToken fuel e t = appendToDef e (cellOfWord w) := by
            simp [stepToken, hf, ha, h1, h2, hw, himm, hm]
          have h3 := appendToDef_preserves e (cellOfWord w)
          exact ⟨by rw [hx, h3.1]; exact hm, by rw [hx, h3.2.1],
            by rw [hx, h3.2.2]⟩

/-- The nesting state machine ignores tokens other than colon and
semicolon. -/
theorem nest_skip (m : Mode) (t : String) (ts : List String)
    (h1 : t ≠ ":") (h2 : t ≠ ";") : nest m (t :: ts) = nest m ts := by
  cases m <;> cases ts <;> simp [nest, h1, h2]

/-- The outer interpreter mode follows the colon/semicolon nesting state
machine: on any fault-free run the final mode is the one the nesting
discipline predicts.  The induction is on a bound of the token list
length because a colon consumes two tokens at once. -/
theorem runTokens_nest (fuel : Nat) :
    ∀ (n : Nat) (ts : List String), ts.length ≤ n →
    ∀ e : Env, e.fault = false → e.awaitingName = false →
    (e.mode = .COMPILE ↔ e.defining.isSome = true) →
    (runTokens fuel e ts).fault = false →
    nest e.mode ts = some (runTokens fuel e ts).mode := by
  intro n
  induction n with
  | zero =>
    intro ts hlen e hf ha hinv hff
    have hts : ts = [] := List.eq_nil_of_length_eq_zero (Nat.le_zero.mp hlen)
    subst hts
    cases hm : e.mode <;> simp [nest, runTokens, hm]
  | succ n ih =>
    intro ts hlen e hf ha hinv hff
    cases ts with
    | nil => cases hm : e.mode <;> simp [nest, runTokens, hm]
    | cons t ts2 =>
      have hcons : runTokens fuel e (t :: ts2)
          = runTokens fuel (stepToken fuel e t) ts2 := rfl
      by_cases hc : t = ":"
      · subst hc
        cases hmode : e.mode with
        | INTERPRET =>
          have hstep : stepToken fuel e ":" = beginColon e :=
            stepToken_colon_interpret fuel e hf ha hmode
          cases ts2 with
          | nil =>
            have hrun1 : runTokens fuel e [":"] = beginColon e := by
              rw [hcons, hstep]; rfl
            rw [hrun1]
            simp [nest, beginColon]
          | cons name ts3 =>
            have hf2 : (beginColon e).fault = false := by
              simpa [beginColon] using hf
            have ha2 : (beginColon e).awaitingName = true := by
              simp [beginColon]
            have hstep2 : stepToken fuel (beginColon e) name
                = takeName (beginColon e) name :=
              stepToken_awaiting fuel (beginColon e) name hf2 ha2
            have hrun : runTokens fuel e (":" :: name :: ts3)
                = runTokens fuel (takeName (beginColon e) name) ts3 := by
              calc runTokens fuel e (":" :: name :: ts3)
                  = runTokens fuel (stepToken fuel e ":") (name :: ts3) := rfl
                _ = runTokens fuel (beginColon e) (name :: ts3) := by rw [hstep]
                _ = runTokens fuel (stepToken fuel (beginColon e) name) ts3 := rfl
                _ = runTokens fuel (takeName (beginColon e) name) ts3 := by
                      rw [hstep2]
            rw [hrun] at hff
            have h3f : (takeName (beginColon e) name).fault = false := by
              simpa [takeName, beginColon] using hf
            have h3a : (takeName (beginColon e) name).awaitingName = false := by
              simp [takeName]
            have h3m : (takeName (beginColon e) name).mode = .COMPILE := by
              simp [takeName, beginColon]
            have h3inv : ((takeName (beginColon e) name).mode = .COMPILE
                ↔ (takeName (beginColon e) name).defining.isSome = true) := by
              simp [takeName, beginColon]
            have hrec := ih ts3 (by simp at hlen; omega)
              (takeName (beginColon e) name) h3f h3a h3inv hff
            rw [h3m] at hrec
            have hnest : nest .INTERPRET (":" :: name :: ts3)
                = nest .COMPILE ts3 := by simp [nest]
            rw [hnest, hrun]
            exact hrec
        | COMPILE =>
          exfalso
          have hstep : stepToken fuel e ":" = setFault e .compilerStateFault :=
            stepToken_colon_compile fuel e hf ha hmode
          rw [hcons, hstep,
            runTokens_of_fault fuel _ ts2 (setFault_fault e _),
            setFault_fault] at hff
          simp at hff
      · by_cases hsc : t = ";"
        · subst hsc
          cases hmode : e.mode with
          | INTERPRET =>
            exfalso
            have hstep : stepToken fuel e ";" = setFault e .compilerStateFault := by
              rw [stepToken_semi fuel e hf ha, semicolonStep_interpret e hmode]
            rw [hcons, hstep,
              runTokens_of_fault fuel _ ts2 (setFault_fault e _),
              setFault_fault] at hff
            simp at hff
          | COMPILE =>
            have hsome : e.defining.isSome = true := hinv.mp hmode
            obtain ⟨⟨nm, body⟩, hdef⟩ := Option.isSome_iff_exists.mp hsome
            have hstep : stepToken fuel e ";" = semicolonStep e :=
              stepToken_semi fuel e hf ha
            by_cases hcap : e.mem.length + body.length + 1 ≤ coreCapacity
            case neg =>
              exfalso
              rw [hcons, hstep, semicolonStep_full e nm body hmode hdef hcap,
                runTokens_of_fault fuel _ ts2 (setFault_fault e _),
                setFault_fault] at hff
              simp at hff
            have hfields := semicolonStep_compile e nm body hmode hdef hcap
            rw [hcons, hstep] at hff
            have hrec := ih ts2 (by simp at hlen; omega) (semicolonStep e)
              (by rw [hfields.2.2.1]; exact hf)
              (by rw [hfields.2.2.2]; exact ha)
              (by rw [hfields.1, hfields.2.1]; simp)
              hff
            rw [hfields.1] at hrec
            have hnest : nest .COMPILE (";" :: ts2) = nest .INTERPRET ts2 := by
              simp [nest]
            rw [hnest, hcons, hstep]
            exact hrec
        · have hpres := stepToken_other_preserves fuel e t hc hsc ha
          rw [hcons] at hff
          by_cases hf2 : (stepToken fuel e t).fault = true
          · exfalso
            rw [runTokens_of_fault fuel _ ts2 hf2, hf2] at hff
            simp at hff
          · have hf2x : (stepToken fuel e t).fault = false :=
              Bool.eq_false_iff.mpr hf2
            have hinv2 : ((stepToken fuel e t).mode = .COMPILE
                ↔ (stepToken fuel e t).defining.isSome = true) := by
              rw [hpres.1, hpres.2.1]; exact hinv
            have hrec := ih ts2 (by simp at hlen; omega) (stepToken fuel e t)
              hf2x (by rw [hpres.2.2]; exact ha) hinv2 hff
            rw [hpres.1] at hrec
            rw [nest_skip e.mode t ts2 hc hsc, hcons]
            exact hrec

/-- C6: on every fault-free run, the INTERPRET/COMPILE state follows the
colon/semicolon nesting state machine (colon switches INTERPRET to
COMPILE, semicolon switches COMPILE to INTERPRET), so a balanced token
sequence consumed without fault ends in INTERPRET; a colon seen while
already in COMPILE and a semicolon seen in INTERPRET are
Compiler-State-Faults. -/
theorem compile_state_machine :
    (∀ (fuel : Nat) (ts : List String) (e : Env),
        e.fault = false → e.awaitingName = false →
        (e.mode = .COMPILE ↔ e.defining.isSome = true) →
        (runTokens fuel e ts).fault = false →
        nest e.mode ts = some (runTokens fuel e ts).mode) ∧
    (∀ (fuel : Nat) (ts : List String) (e : Env),
        e.fault = false → e.awaitingName = false →
        (e.mode = .COMPILE ↔ e.defining.isSome = true) →
        (runTokens fuel e ts).fault = false →
        nest e.mode ts = some .INTERPRET →
        (runTokens fuel e ts).mode = .INTERPRET) ∧
    (∀ (fuel : Nat) (e : Env), e.fault = false → e.awaitingName = false →
        e.mode = .COMPILE →
        (stepToken fuel e ":").fault = true ∧
        (stepToken fuel e ":").faultKind = some .compilerStateFault) ∧
    (∀ (fuel : Nat) (e : Env), e.fault = false → e.awaitingName = false →
        e.mode = .INTERPRET →
        (stepToken fuel e ";").fault = true ∧
        (stepToken fuel e ";").faultKind = some .compilerStateFault) := by
  refine ⟨?_, ?_, ?_, ?_⟩
  · intro fuel ts e hf ha hinv hff
    exact runTokens_nest fuel ts.length ts le_rfl e hf ha hinv hff
  · intro fuel ts e hf ha hinv hff hbal
    have h := runTokens_nest fuel ts.length ts le_rfl e hf ha hinv hff
    rw [hbal] at h
    exact (Option.some.injEq _ _ ▸ h).symm
  · intro fuel e hf ha hm
    rw [stepToken_colon_compile fuel e hf ha hm]
    exact ⟨setFault_fault e _, setFault_kind e _ hf⟩
  · intro fuel e hf ha hm
    rw [stepToken_semi fuel e hf ha, semicolonStep_interpret e hm]
    exact ⟨setFault_fault e _, setFault_kind e _ hf⟩

/-- Witness for C6: the balanced sequence defining X and the unbalanced
single tokens, on concrete environments. -/
theorem compile_state_machine_witness :
    (runTokens 100 initEnv [":", "X", "1", ";"]).mode = .INTERPRET ∧
    (stepToken 100 (runTokens 100 initEnv [":", "X"]) ":").faultKind
      = some .compilerStateFault ∧
    (stepToken 100 initEnv ";").faultKind = some .compilerStateFault := by
  refine ⟨?_, ?_, ?_⟩
  · exact compile_state_machine.2.1 100 [":", "X", "1", ";"] initEnv
      (by decide) (by decide) (by decide) (by decide) (by decide)
  · exact (compile_state_machine.2.2.1 100 (runTokens 100 initEnv [":", "X"])
      (by decide) (by decide) (by decide)).2
  · exact (compile_state_machine.2.2.2 100 initEnv
      (by decide) (by decide) (by decide)).2

/-- C5: dictionary lookup is newest-first, so a record whose name
matches is found at the head and a head with another name is skipped;
in the concrete redefinition scenario (ONE pushing 1, CALLER calling
ONE, then ONE redefined to push 2), lookup of ONE resolves to the new
body at offset 4 while running CALLER still pushes 1, because its call
cell was bound to the old body offset when CALLER was compiled. -/
theorem redefinition_shadows :
    (∀ (d : List WordRec) (w : WordRec) (n : String),
        w.hidden = false → w.name = n → lookup (w :: d) n = some w) ∧
    (∀ (d : List WordRec) (w : WordRec) (n : String),
        w.name ≠ n → lookup (w :: d) n = lookup d n) ∧
    shadowEnv.fault = false ∧
    lookup shadowEnv.dict "ONE"
      = some { name := "ONE", code := .compiled 4, immediate := false, hidden := false } ∧
    (runTokens 100 shadowEnv ["ONE"]).dstack = [2] ∧
    (runTokens 100 shadowEnv ["CALLER"]).dstack = [1] := by
  refine ⟨?_, ?_, by decide, by decide, by decide, by decide⟩
  · intro d w n h1 h2
    simp [lookup, h1, h2]
  · intro d w n h
    simp [lookup, h]

/-- Witness for C5: the newer of two records named A is the one lookup
returns, and a record with a different name is skipped. -/
theorem redefinition_shadows_witness :
    lookup
      [ { name := "A", code := .compiled 7, immediate := false, hidden := false }
      , { name := "A", code := .compiled 3, immediate := false, hidden := false } ] "A"
      = some { name := "A", code := .compiled 7, immediate := false, hidden := false } ∧
    lookup
      [ { name := "B", code := .compiled 9, immediate := false, hidden := false }
      , { name := "A", code := .compiled 3, immediate := false, hidden := false } ] "A"
      = lookup [ { name := "A", code := .compiled 3, immediate := false, hidden := false } ] "A" :=
  ⟨redefinition_shadows.1 _ _ _ rfl rfl,
   redefinition_shadows.2.1 _ _ _ (by decide)⟩

/-- The machine word modulus is positive. -/
theorem mwModulus_pos : 0 < mwModulus := by norm_num [mwModulus]

/-- The digit loop only produces values below the machine word
modulus. -/
theorem parseDigits_lt (radix : Nat) (cs : List Char) :
    ∀ (acc v : Nat), acc < mwModulus →
    parseDigits radix cs acc = some v → v < mwModulus := by
  induction cs with
  | nil =>
    intro acc v hacc h
    simp [parseDigits] at h
    omega
  | cons c cs ih =>
    intro acc v hacc h
    rcases hd : digitVal c with _ | d
    · simp [parseDigits, hd] at h
    · simp only [parseDigits, hd] at h
      by_cases hr : d < radix
      · rw [if_pos hr] at h
        exact ih _ v (Nat.mod_lt _ mwModulus_pos) h
      · rw [if_neg hr] at h
        simp at h

/-- The number parser only produces machine words: every parsed value is
below 2 to the 16. -/
theorem parseNumber_lt (radix : Nat) (tok : String) (v : Nat)
    (h : parseNumber radix tok = some v) : v < mwModulus := by
  rcases hl : tok.data with _ | ⟨c, cs⟩ <;>
    simp only [parseNumber, String.toList, hl] at h
  · exact absurd h (by simp)
  · by_cases hm : c = '-'
    · rw [if_pos hm] at h
      cases cs with
      | nil => simp at h
      | cons c2 cs2 =>
        rcases hp : parseDigits radix (c2 :: cs2) 0 with _ | w <;>
          rw [hp] at h <;> simp at h
        exact h ▸ Nat.mod_lt _ mwModulus_pos
    · rw [if_neg hm] at h
      by_cases hp : c = '+'
      · rw [if_pos hp] at h
        cases cs with
        | nil => simp at h
        | cons c2 cs2 => exact parseDigits_lt radix (c2 :: cs2) 0 v mwModulus_pos h
      · rw [if_neg hp] at h
        exact parseDigits_lt radix (c :: cs) 0 v mwModulus_pos h

/-- Raising a fault does not touch the machine word discipline. -/
theorem setFault_wf (e : Env) (f : Fault) : wf (setFault e f) = wf e := by
  unfold setFault; split <;> simp [wf]

/-- The compilation cell of a discipline-respecting dictionary word
satisfies the machine word discipline: a primitive cell trivially, a
call cell because the record keeps its body offset below the
modulus. -/
theorem cellWF_cellOfWord (w : WordRec) (h : wordWF w = true) :
    cellWF (cellOfWord w) = true := by
  rcases hw : w.code with p | a
  · simp [cellOfWord, hw, cellWF]
  · simp only [cellOfWord, hw, cellWF, decide_eq_true_eq]
    simpa [wordWF, hw] using h

/-- A word found by dictionary lookup in a discipline-respecting
dictionary respects the discipline. -/
theorem lookup_wordWF (n : String) : ∀ (d : List WordRec) (w : WordRec),
    lookup d n = some w → d.all wordWF = true → wordWF w = true := by
  intro d
  induction d with
  | nil => intro w h _; simp [lookup] at h
  | cons x d ih =>
    intro w h hall
    rw [List.all_cons, Bool.and_eq_true] at hall
    by_cases hx : x.hidden = false ∧ x.name = n
    · simp only [lookup, if_pos hx, Option.some.injEq] at h
      rw [← h]; exact hall.1
    · simp only [lookup, if_neg hx] at h
      exact ih w h hall.2

/-- A discipline-respecting environment has a discipline-respecting
dictionary. -/
theorem wf_dict (e : Env) (h : wf e = true) : e.dict.all wordWF = true := by
  simp only [wf, Bool.and_eq_true] at h
  tauto

/-- A discipline-respecting environment has a discipline-respecting
code memory. -/
theorem wf_mem (e : Env) (h : wf e = true) : e.mem.all cellWF = true := by
  simp only [wf, Bool.and_eq_true] at h
  tauto

/-- The environment of a discipline-respecting inner interpreter state
respects the discipline. -/
theorem wf_of_stateWF (s : InnerState) (h : stateWF s = true) :
    wf (stateEnv s) = true := by
  cases s with
  | running e ip =>
    simp only [stateWF, Bool.and_eq_true] at h
    simpa [stateEnv] using h.1
  | finished e => simpa [stateWF, stateEnv] using h

/-- A cell fetched from a memory whose cells all satisfy the machine
word discipline satisfies it. -/
theorem cellWF_of_getElem (l : List Cell) :
    ∀ (i : Nat) (c : Cell), l[i]? = some c → l.all cellWF = true →
    cellWF c = true := by
  induction l with
  | nil => intro i c h _; simp at h
  | cons a l ih =>
    intro i c h hall
    rw [List.all_cons, Bool.and_eq_true] at hall
    cases i with
    | zero =>
      rw [List.getElem?_cons_zero, Option.some.injEq] at h
      rw [← h]; exact hall.1
    | succ i =>
      rw [List.getElem?_cons_succ] at h
      exact ih i c h hall.2

/-- Every primitive opcode preserves the machine word discipline: the
values it leaves on the data stack are reduced modulo 2 to the 16. -/
theorem execPrim_wf (p : Prim) (e : Env) (h : wf e = true) :
    wf (execPrim p e) = true := by
  cases p with
  | pDUP =>
    rcases hd : e.dstack with _ | ⟨v, rest⟩
    · simp [execPrim, hd, setFault_wf, h]
    · simp only [execPrim, hd]
      simp only [wf, hd, List.all_cons, Bool.and_eq_true, decide_eq_true_eq] at h ⊢
      tauto
  | pADD =>
    rcases hd : e.dstack with _ | ⟨b, _ | ⟨a, rest⟩⟩
    · simp [execPrim, hd, setFault_wf, h]
    · simp [execPrim, hd, setFault_wf, h]
    · have hb := Nat.mod_lt (a + b) mwModulus_pos
      simp only [execPrim, hd]
      simp only [wf, hd, List.all_cons, Bool.and_eq_true, decide_eq_true_eq] at h ⊢
      tauto
  | pMUL =>
    rcases hd : e.dstack with _ | ⟨b, _ | ⟨a, rest⟩⟩
    · simp [execPrim, hd, setFault_wf, h]
    · simp [execPrim, hd, setFault_wf, h]
    · have hb := Nat.mod_lt (a * b) mwModulus_pos
      simp only [execPrim, hd]
      simp only [wf, hd, List.all_cons, Bool.and_eq_true, decide_eq_true_eq] at h ⊢
      tauto
  | pDIV =>
    rcases hd : e.dstack with _ | ⟨b, _ | ⟨a, rest⟩⟩
    · simp [execPrim, hd, setFault_wf, h]
    · simp [execPrim, hd, setFault_wf, h]
    · by_cases hb0 : b = 0
      · simp [execPrim, hd, hb0, setFault_wf, h]
      · have hb := Nat.mod_lt (a / b) mwModulus_pos
        simp only [execPrim, hd, if_neg hb0]
        simp only [wf, hd, List.all_cons, Bool.and_eq_true, decide_eq_true_eq] at h ⊢
        tauto
  | pEXIT => simpa [execPrim] using h

/-- Dispatching one fetched cell preserves the machine word discipline
of the whole state, the instruction pointer register included, provided
the fetched cell itself satisfies the discipline: every next instruction
pointer is a reduced increment, a bounded call offset, or a bounded
return stack entry. -/
theorem innerDispatch_stateWF (e : Env) (ip : Nat) (mc : Option Cell)
    (h : wf e = true) (hc : ∀ c, mc = some c → cellWF c = true) :
    stateWF (innerDispatch e ip mc) = true := by
  rcases mc with _ | c
  · simp only [innerDispatch, stateWF]
    rw [setFault_wf]
    exact h
  · cases c with
    | prim p =>
      cases p with
      | pEXIT =>
        rcases hr : e.rstack with _ | ⟨r, rs⟩
        · simpa [innerDispatch, stateWF, hr] using h
        · simp only [innerDispatch, hr, stateWF, Bool.and_eq_true,
            decide_eq_true_eq]
          simp only [wf, hr, List.all_cons, Bool.and_eq_true,
            decide_eq_true_eq] at h ⊢
          tauto
      | pDUP =>
        simp only [innerDispatch, stateWF, Bool.and_eq_true, decide_eq_true_eq]
        exact ⟨execPrim_wf _ e h, Nat.mod_lt _ mwModulus_pos⟩
      | pADD =>
        simp only [innerDispatch, stateWF, Bool.and_eq_true, decide_eq_true_eq]
        exact ⟨execPrim_wf _ e h, Nat.mod_lt _ mwModulus_pos⟩
      | pMUL =>
        simp only [innerDispatch, stateWF, Bool.and_eq_true, decide_eq_true_eq]
        exact ⟨execPrim_wf _ e h, Nat.mod_lt _ mwModulus_pos⟩
      | pDIV =>
        simp only [innerDispatch, stateWF, Bool.and_eq_true, decide_eq_true_eq]
        exact ⟨execPrim_wf _ e h, Nat.mod_lt _ mwModulus_pos⟩
    | lit v =>
      have hv : v < mwModulus := by simpa [cellWF] using hc (.lit v) rfl
      simp only [innerDispatch, stateWF, Bool.and_eq_true, decide_eq_true_eq]
      refine ⟨?_, Nat.mod_lt _ mwModulus_pos⟩
      simp only [wf, List.all_cons, Bool.and_eq_true, decide_eq_true_eq] at h ⊢
      tauto
    | call a =>
      have hv : a < mwModulus := by simpa [cellWF] using hc (.call a) rfl
      simp only [innerDispatch, stateWF, Bool.and_eq_true, decide_eq_true_eq]
      refine ⟨?_, hv⟩
      have hip := Nat.mod_lt (ip + 1) mwModulus_pos
      simp only [wf, List.all_cons, Bool.and_eq_true, decide_eq_true_eq] at h ⊢
      tauto

/-- One inner interpreter step preserves the machine word discipline of
the whole state, the instruction pointer register included. -/
theorem innerStep_stateWF (s : InnerState) (h : stateWF s = true) :
    stateWF (innerStep s) = true := by
  cases s with
  | finished e => simpa [innerStep, stateWF] using h
  | running e ip =>
    have hw : wf e = true := by simpa [stateEnv] using wf_of_stateWF _ h
    by_cases hf : e.fault
    · simpa [innerStep, stateWF, hf] using hw
    · simp only [innerStep, hf, Bool.false_eq_true, if_false]
      exact innerDispatch_stateWF e ip _ hw
        (fun c hc2 => cellWF_of_getElem e.mem ip c hc2 (wf_mem e hw))

/-- One inner interpreter step preserves the machine word discipline of
the carried environment. -/
theorem innerStep_wf (s : InnerState) (h : wf (stateEnv s) = true) :
    wf (stateEnv (innerStep s)) = true := by
  cases s with
  | finished e => simpa [innerStep, stateEnv] using h
  | running e ip =>
    simp only [stateEnv] at h
    by_cases hf : e.fault
    · simpa [innerStep, stateEnv, hf] using h
    · simp only [innerStep, hf, Bool.false_eq_true, if_false]
      exact wf_of_stateWF _ (innerDispatch_stateWF e ip _ h
        (fun c hc2 => cellWF_of_getElem e.mem ip c hc2 (wf_mem e h)))

/-- A bounded inner interpreter run preserves the machine word
discipline. -/
theorem innerRun_wf (fuel : Nat) : ∀ s : InnerState,
    wf (stateEnv s) = true → wf (stateEnv (innerRun fuel s)) = true := by
  induction fuel with
  | zero => intro s h; exact h
  | succ fuel ih => intro s h; exact ih (innerStep s) (innerStep_wf s h)

/-- The inner interpreter preserves the machine word discipline. -/
theorem inner_wf (fuel : Nat) (e : Env) (ip : Nat) (h : wf e = true) :
    wf (inner fuel e ip) = true := by
  have h2 := innerRun_wf fuel (.running e ip) (by simpa [stateEnv] using h)
  rcases hs : innerRun fuel (.running e ip) with ⟨e2, ip2⟩ | e2 <;>
    rw [hs] at h2 <;> simp only [stateEnv] at h2 <;> simp only [inner, hs]
  · simpa [wf] using h2
  · exact h2

/-- Executing a dictionary word preserves the machine word
discipline. -/
theorem execWord_wf (fuel : Nat) (e : Env) (w : WordRec)
    (h : wf e = true) : wf (execWord fuel e w) = true := by
  rcases hw : w.code with p | a
  · simp only [execWord, hw]; exact execPrim_wf p e h
  · simp only [execWord, hw]; exact inner_wf fuel e a h

/-- Appending a discipline-respecting cell to the open definition
preserves the machine word discipline. -/
theorem appendToDef_wf (e : Env) (c : Cell) (h : wf e = true)
    (hc : cellWF c = true) : wf (appendToDef e c) = true := by
  rcases hd : e.defining with _ | ⟨n, body⟩
  · simp [appendToDef, hd, setFault_wf, h]
  · simp only [appendToDef, hd]
    simp only [wf, defWF, hd, Bool.and_eq_true, List.all_append,
      List.all_cons, List.all_nil] at h ⊢
    tauto

/-- Sealing a definition preserves the machine word discipline: when it
fits, the new body offset and the new code memory length stay within the
mw-addressable capacity; when it does not fit, the Dictionary-Full fault
changes nothing else. -/
theorem semicolonStep_wf (e : Env) (h : wf e = true) :
    wf (semicolonStep e) = true := by
  cases hm : e.mode with
  | INTERPRET => simp [semicolonStep, hm, setFault_wf, h]
  | COMPILE =>
    rcases hd : e.defining with _ | ⟨n, body⟩
    · simp [semicolonStep, hm, hd, setFault_wf, h]
    · by_cases hcap : e.mem.length + body.length + 1 ≤ coreCapacity
      · have hlt : e.mem.length < mwModulus := by
          have hcc : coreCapacity = mwModulus := rfl
          omega
        have hlen : e.mem.length + (body.length + 1) ≤ coreCapacity := by omega
        simp only [semicolonStep, hm, hd, if_pos hcap]
        simp only [wf, defWF, hd, wordWF, Bool.and_eq_true, List.all_append,
          List.all_cons, List.all_nil, List.length_append, List.length_cons,
          List.length_nil, cellWF, decide_eq_true_eq] at h ⊢
        tauto
      · simp [semicolonStep, hm, hd, hcap, setFault_wf, h]

/-- One outer interpreter step preserves the machine word discipline. -/
theorem stepToken_wf (fuel : Nat) (e : Env) (tok : String)
    (h : wf e = true) : wf (stepToken fuel e tok) = true := by
  by_cases hf : e.fault
  · simpa [stepToken, hf] using h
  · have hf0 : e.fault = false := by simpa using hf
    by_cases ha : e.awaitingName
    · rw [stepToken_awaiting fuel e tok hf0 ha]
      simp only [takeName, wf, defWF, Bool.and_eq_true, List.all_nil] at h ⊢
      tauto
    · have ha0 : e.awaitingName = false := by simpa using ha
      by_cases hc : tok = ":"
      · subst hc
        cases hm : e.mode with
        | COMPILE =>
          rw [stepToken_colon_compile fuel e hf0 ha0 hm, setFault_wf]
          exact h
        | INTERPRET =>
          rw [stepToken_colon_interpret fuel e hf0 ha0 hm]
          simpa [beginColon, wf] using h
      · by_cases hsc : tok = ";"
        · subst hsc
          rw [stepToken_semi fuel e hf0 ha0]
          exact semicolonStep_wf e h
        · rcases hw : lookup e.dict tok with _ | w
          · rcases hn : parseNumber e.radix tok with _ | v
            · simp [stepToken, hf, ha, hc, hsc, hw, hn, setFault_wf, h]
            · have hv := parseNumber_lt e.radix tok v hn
              cases hm : e.mode with
              | INTERPRET =>
                have hx : stepToken fuel e tok
                    = { e with dstack := v :: e.dstack } := by
                  simp [stepToken, hf, ha, hc, hsc, hw, hn, hm]
                rw [hx]
                simp only [wf, List.all_cons, Bool.and_eq_true,
                  decide_eq_true_eq] at h ⊢
                tauto
              | COMPILE =>
                have hx : stepToken fuel e tok = appendToDef e (.lit v) := by
                  simp [stepToken, hf, ha, hc, hsc, hw, hn, hm]
                rw [hx]
                exact appendToDef_wf e _ h (by simpa [cellWF] using hv)
          · by_cases himm : w.immediate = true
            · have hx : stepToken fuel e tok = execWord fuel e w := by
                simp [stepToken, hf, ha, hc, hsc, hw, himm]
              rw [hx]
              exact execWord_wf fuel e w h
            · cases hm : e.mode with
              | INTERPRET =>
                have hx : stepToken fuel e tok = execWord fuel e w := by
                  simp [stepToken, hf, ha, hc, hsc, hw, himm, hm]
                rw [hx]
                exact execWord_wf fuel e w h
              | COMPILE =>
                have hx : stepToken fuel e tok
                    = appendToDef e (cellOfWord w) := by
                  simp [stepToken, hf, ha, hc, hsc, hw, himm, hm]
                have hw2 : wordWF w = true :=
                  lookup_wordWF tok e.dict w hw (wf_dict e h)
                rw [hx]
                exact appendToDef_wf e _ h (cellWF_cellOfWord w hw2)

/-- A whole outer interpreter run preserves the machine word
discipline. -/
theorem runTokens_wf (fuel : Nat) (ts : List String) : ∀ e : Env,
    wf e = true → wf (runTokens fuel e ts) = true := by
  induction ts with
  | nil => intro e h; exact h
  | cons t ts ih => intro e h; exact ih (stepToken fuel e t) (stepToken_wf fuel e t h)

/-- C10: machine words are 16-bit unsigned integers (mw is uint16_t in
src/libforth.h): the machine word discipline wf — every data stack and
return stack value, every literal value and call offset held in a Core
Memory cell or in the definition being built, every dictionary body
offset and the radix register lie below 2 to the 16, and code memory
never exceeds the mw-addressable capacity — is preserved by every run
and every Evaluate call; one inner interpreter step also keeps the
instruction pointer register a machine word; the number parser only
produces values below 2 to the 16; and the non-faulting arithmetic
primitives compute modulo 2 to the 16. -/
theorem machine_words_16bit :
    mwModulus = 2 ^ 16 ∧
    (∀ (fuel : Nat) (e : Env) (ts : List String),
        wf e = true → wf (runTokens fuel e ts) = true) ∧
    (∀ (fuel : Nat) (e : Env) (s : String),
        wf e = true → wf (forth_eval fuel e s).2 = true) ∧
    (∀ s : InnerState, stateWF s = true → stateWF (innerStep s) = true) ∧
    (∀ (radix : Nat) (tok : String) (v : Nat),
        parseNumber radix tok = some v → v < mwModulus) ∧
    (∀ (e : Env) (a b : Nat) (rest : List Nat), e.dstack = b :: a :: rest →
        (execPrim .pADD e).dstack = ((a + b) % mwModulus) :: rest ∧
        (execPrim .pMUL e).dstack = ((a * b) % mwModulus) :: rest) := by
  refine ⟨by norm_num [mwModulus], ?_, ?_, innerStep_stateWF, parseNumber_lt, ?_⟩
  · intro fuel e ts h
    exact runTokens_wf fuel ts e h
  · intro fuel e s h
    by_cases hf : e.fault
    · simpa [forth_eval, hf] using h
    · simp only [forth_eval, hf, Bool.false_eq_true, if_false]
      exact runTokens_wf fuel (tokenize s) e h
  · intro e a b rest hd
    exact ⟨by simp [execPrim, hd], by simp [execPrim, hd]⟩

/-- Witness for C10: a concrete run that wraps 65535 + 1 around to 0
keeps the discipline, one inner step from a concrete state keeps it too,
7 parses below the modulus, and a concrete addition reduces modulo 2 to
the 16. -/
theorem machine_words_16bit_witness :
    wf (runTokens 100 initEnv ["65535", "1", "+"]) = true ∧
    stateWF (innerStep (.running initEnv 0)) = true ∧
    (7 : Nat) < mwModulus ∧
    (execPrim .pADD { initEnv with dstack := [1, 65535] }).dstack
      = [(65535 + 1) % mwModulus] :=
  ⟨machine_words_16bit.2.1 100 initEnv ["65535", "1", "+"] (by decide),
   machine_words_16bit.2.2.2.1 (.running initEnv 0) (by decide),
   machine_words_16bit.2.2.2.2.1 10 "7" 7 (by decide),
   (machine_words_16bit.2.2.2.2.2 { initEnv with dstack := [1, 65535] }
      65535 1 [] (by decide)).1⟩

end LibForth
